import Mathlib

set_option linter.unusedVariables false

/-!
Shallow embedding of `drivers/block/brk.c`, a RAM-backed block device driver.

The radix tree `brk_pages` is modelled as an association list sorted by page
index (`Store`); iteration order of `radix_tree_gang_lookup` is key order,
matching the kernel radix tree.  A `Page` is its `index` field together with
its byte contents (`data : Nat → Nat`, meaningful on offsets `< PAGE_SIZE`).

Allocation failures (`alloc_page`, `radix_tree_preload`) are modelled by
Boolean oracle parameters.  Kernel `BUG_ON` panics are modelled by `Option`
results (`none` = the assertion fired).  The vestigial SHA-1 digest in
`copy_to_brk` touches only the fixed local buffer `dayjob` and the log; its
one observable side effect in the copy phase, the `crypto_alloc_hash` memory
allocation, is recorded as an allocation counter in `copy_to_brk`'s result.
-/

def PAGE_SHIFT : Nat := 12

def PAGE_SIZE : Nat := 1 <<< PAGE_SHIFT

def SECTOR_SHIFT : Nat := 9

def SECTOR_SIZE : Nat := 1 <<< SECTOR_SHIFT

def PAGE_SECTORS_SHIFT : Nat := PAGE_SHIFT - SECTOR_SHIFT

def PAGE_SECTORS : Nat := 1 <<< PAGE_SECTORS_SHIFT

def FREE_BATCH : Nat := 16

/-- Errno value of EIO (the driver returns `-EIO` for range failures). -/
def EIOval : Int := 5

def ENOSPC : Int := 28

def ENOTTY : Int := 25

def EBUSY : Int := 16

def BLKFLSBUF : Nat := 4705

/-- One backing page: its recorded `->index` and its byte contents. -/
structure Page where
  index : Nat
  data : Nat → Nat

/-- The radix tree `brk_pages`: association list sorted by page index. -/
abbrev Store := List (Nat × Page)

def radix_tree_lookup (t : Store) (idx : Nat) : Option Page :=
  (t.find? (fun e => e.1 == idx)).map (·.2)

/-- Insertion keeping the key order (the radix tree iterates in key order). -/
def store_insert_sorted (t : Store) (idx : Nat) (p : Page) : Store :=
  match t with
  | [] => [(idx, p)]
  | e :: rest => if idx < e.1 then (idx, p) :: e :: rest else e :: store_insert_sorted rest idx p

/-- `radix_tree_insert` fails (`-EEXIST`, modelled `none`) when the slot is occupied. -/
def radix_tree_insert (t : Store) (idx : Nat) (p : Page) : Option Store :=
  match radix_tree_lookup t idx with
  | some _ => none
  | none => some (store_insert_sorted t idx p)

/-- `radix_tree_delete` returns the deleted entry (if any) and the remaining tree. -/
def radix_tree_delete (t : Store) (idx : Nat) : Option Page × Store :=
  (radix_tree_lookup t idx, t.filter (fun e => e.1 != idx))

/-- Up to `batch` entries with key at least `pos`, in key order. -/
def radix_tree_gang_lookup (t : Store) (pos : Nat) (batch : Nat) : List (Nat × Page) :=
  (t.filter (fun e => pos ≤ e.1)).take batch

/-- In-place mutation of the page stored at `idx` (the C code writes through
the kmapped page; the tree keeps holding the same page). -/
def store_update (t : Store) (idx : Nat) (p : Page) : Store :=
  t.map (fun e => if e.1 == idx then (idx, p) else e)

/-- Sector to page index: `sector >> PAGE_SECTORS_SHIFT`. -/
def pageIdx (sector : Nat) : Nat := sector >>> PAGE_SECTORS_SHIFT

/-- Byte offset of a sector within its page:
`(sector & (PAGE_SECTORS-1)) << SECTOR_SHIFT`. -/
def secOffset (sector : Nat) : Nat := (sector &&& (PAGE_SECTORS - 1)) <<< SECTOR_SHIFT

/-- The first chunk length of a split copy:
`min_t(size_t, n, PAGE_SIZE - offset)`. -/
def copyLen (sector n : Nat) : Nat := min n (PAGE_SIZE - secOffset sector)

/-- The sector the second chunk starts at: `sector + (copy >> SECTOR_SHIFT)`. -/
def nextSector (sector n : Nat) : Nat := sector + (copyLen sector n >>> SECTOR_SHIFT)

/-- brk_lookup_page: tree lookup at `sector >> PAGE_SECTORS_SHIFT`.
The C code's `BUG_ON(page && page->index != idx)` is covered by the store
invariant theorem (a looked-up page's index always equals its key). -/
def brk_lookup_page (t : Store) (sector : Nat) : Option Page :=
  radix_tree_lookup t (pageIdx sector)

/-- The section of brk_insert_page run under `brk_lock`: tag the freshly
allocated page with `idx`, try to insert it; if the slot is already occupied
(an insertion race was lost), free the new page and return the existing one.
The final branch is unreachable (`BUG_ON(!page)`: insertion only fails when
the slot is occupied, in which case the re-lookup succeeds). -/
def brk_insert_locked (t : Store) (idx : Nat) (page : Page) : Page × Store :=
  let tagged := { page with index := idx }
  match radix_tree_insert t idx tagged with
  | some t2 => (tagged, t2)
  | none =>
    match radix_tree_lookup t idx with
    | some q => (q, t)
    | none => (tagged, t)

/-- The page produced by `alloc_page(GFP_NOIO | __GFP_ZERO | ...)`. -/
def zeroFilledPage : Page := { index := 0, data := fun _ => 0 }

/-- brk_insert_page: return the existing page for `sector`, or allocate a
zero-filled page and insert it.  `allocOk` models `alloc_page` succeeding,
`preloadOk` models `radix_tree_preload` succeeding; `none` in the first
component is the `-ENOSPC` outcome. -/
def brk_insert_page (t : Store) (sector : Nat) (allocOk preloadOk : Bool) :
    Option Page × Store :=
  match brk_lookup_page t sector with
  | some page => (some page, t)
  | none =>
    if allocOk then
      if preloadOk then
        let r := brk_insert_locked t (pageIdx sector) zeroFilledPage
        (some r.1, r.2)
      else (none, t)
    else (none, t)

def brk_free_page (t : Store) (sector : Nat) : Store :=
  (radix_tree_delete t (pageIdx sector)).2

/-- clear_highpage: zero the page contents in place. -/
def clear_highpage (p : Page) : Page := { p with data := fun _ => 0 }

def brk_zero_page (t : Store) (sector : Nat) : Store :=
  match brk_lookup_page t sector with
  | some page => store_update t (pageIdx sector) (clear_highpage page)
  | none => t

/-- The inner `for` loop of brk_free_pages over one gang-lookup batch:
delete each found page, advancing `pos` to the page's recorded index.
`none` models the `BUG_ON(pages[i]->index < pos)` and `BUG_ON(!ret)` panics
(the pointer comparison `ret != pages[i]` has no counterpart in this value
model: the tree stores one page per key, so the deleted entry is the found
entry by construction). -/
def brk_free_batch : Store → Nat → List (Nat × Page) → Option (Store × Nat)
  | t, pos, [] => some (t, pos)
  | t, pos, e :: rest =>
    if e.2.index < pos then none
    else
      match radix_tree_delete t e.2.index with
      | (some _, t2) => brk_free_batch t2 e.2.index rest
      | (none, _) => none

/-- The do/while loop of brk_free_pages: gang-look-up a batch starting at
`pos`, delete the found pages, and continue (from one past the last deleted
index) as long as a full batch was returned. -/
def brk_free_pages_loop (t : Store) (pos : Nat) : Option Store :=
  match h : brk_free_batch t pos (radix_tree_gang_lookup t pos FREE_BATCH) with
  | none => none
  | some (t2, pos2) =>
    if hlen : (radix_tree_gang_lookup t pos FREE_BATCH).length = FREE_BATCH then
      brk_free_pages_loop t2 (pos2 + 1)
    else
      some t2
termination_by t.length
decreasing_by
  have hdel : ∀ (s : Store) (k : Nat) (q : Page),
      radix_tree_lookup s k = some q →
      (s.filter (fun e => e.1 != k)).length < s.length := by
    intro s
    induction s with
    | nil => intro k q hq; simp [radix_tree_lookup] at hq
    | cons a rest ih =>
      intro k q hq
      by_cases hk : a.1 = k
      · have hfa : (a.1 != k) = false := by simp [hk]
        have := List.length_filter_le (fun e => e.1 != k) rest
        simp only [List.filter_cons, hfa, Bool.false_eq_true, if_false, List.length_cons]
        omega
      · have hfa : (a.1 != k) = true := by simp [hk]
        have hq2 : radix_tree_lookup rest k = some q := by
          have hcons : List.find? (fun e => e.1 == k) (a :: rest) =
              List.find? (fun e => e.1 == k) rest := by
            rw [List.find?_cons_of_neg]
            simp [hk]
          simp only [radix_tree_lookup] at hq ⊢
          rw [hcons] at hq
          exact hq
        have := ih k q hq2
        simp only [List.filter_cons, hfa, if_true, List.length_cons]
        omega
  have hbatch : ∀ (l : List (Nat × Page)) (s : Store) (pos : Nat) (s2 : Store) (p2 : Nat),
      brk_free_batch s pos l = some (s2, p2) → s2.length + l.length ≤ s.length := by
    intro l
    induction l with
    | nil =>
      intro s pos s2 p2 hb
      simp only [brk_free_batch, Option.some.injEq, Prod.mk.injEq] at hb
      obtain ⟨h1, -⟩ := hb
      subst h1
      simp
    | cons e rest ih =>
      intro s pos s2 p2 hb
      simp only [brk_free_batch] at hb
      by_cases hc : e.2.index < pos
      · simp [hc] at hb
      · simp only [hc, if_false] at hb
        cases hl : radix_tree_lookup s e.2.index with
        | none => simp [radix_tree_delete, hl] at hb
        | some q =>
          simp only [radix_tree_delete, hl] at hb
          have h1 := ih _ _ _ _ hb
          have h2 := hdel s e.2.index q hl
          simp only [List.length_cons]
          omega
  have h1 := hbatch _ _ _ _ _ h
  have h2 : (radix_tree_gang_lookup t pos FREE_BATCH).length = 16 := by
    simpa [FREE_BATCH] using hlen
  omega

def brk_free_pages (t : Store) : Option Store :=
  brk_free_pages_loop t 0

/-- memcpy of `len` bytes from buffer `s` into `d` at byte offset `off`. -/
def memcpyBytes (d : Nat → Nat) (off : Nat) (s : Nat → Nat) (len : Nat) : Nat → Nat :=
  fun j => if off ≤ j ∧ j < off + len then s (j - off) else d j

/-- The first page after copy_to_brk's first memcpy:
`memcpy(dst + offset, src, copy)`. -/
def pageWriteLo (p : Page) (src : Nat → Nat) (sector n : Nat) : Page :=
  { p with data := memcpyBytes p.data (secOffset sector) src (copyLen sector n) }

/-- The second page after copy_to_brk's second memcpy:
`memcpy(dst, src + copy, n - copy)`. -/
def pageWriteHi (p : Page) (src : Nat → Nat) (sector n : Nat) : Page :=
  { p with
    data := memcpyBytes p.data 0 (fun i => src (copyLen sector n + i)) (n - copyLen sector n) }

/-- copy_to_brk_setup: ensure the page for `sector` and, when the byte range
`[sector*512, sector*512+n)` crosses into the next page, that page as well.
Oracle slots `o 0`/`o 1` feed the first `brk_insert_page` call and
`o 2`/`o 3` the second. -/
def copy_to_brk_setup (t : Store) (sector n : Nat) (o : Nat → Bool) : Int × Store :=
  match brk_insert_page t sector (o 0) (o 1) with
  | (none, t1) => (-ENOSPC, t1)
  | (some _, t1) =>
    if copyLen sector n < n then
      match brk_insert_page t1 (nextSector sector n) (o 2) (o 3) with
      | (none, t2) => (-ENOSPC, t2)
      | (some _, t2) => (0, t2)
    else (0, t1)

/-- The fixed buffer the vestigial digest is computed over (ten bytes 'A'). -/
def dayjob : List Nat := List.replicate 10 65

/-- copy_to_brk: copy `n` bytes of `src` into the store starting at `sector`,
splitting at one page boundary.  First component: the resulting store, or
`none` when a required page is missing (`BUG_ON(!page)`).  Second component:
the number of memory allocations performed in this copy phase — the
`crypto_alloc_hash("sha1", ...)` call, made once the first page is mapped.
The digest it computes reads only `dayjob` and is printed and discarded; the
stored bytes come verbatim from `src` via memcpy. -/
def copy_to_brk (t : Store) (src : Nat → Nat) (sector n : Nat) :
    Option Store × Nat :=
  let copy := copyLen sector n
  match brk_lookup_page t sector with
  | none => (none, 0)
  | some page =>
    let allocCalls := 1
    let page1 := { page with data := memcpyBytes page.data (secOffset sector) src copy }
    let t1 := store_update t (pageIdx sector) page1
    if copy < n then
      let sector2 := nextSector sector n
      match brk_lookup_page t1 sector2 with
      | none => (none, allocCalls)
      | some page2 =>
        let page3 := { page2 with
          data := memcpyBytes page2.data 0 (fun i => src (copy + i)) (n - copy) }
        (some (store_update t1 (pageIdx sector2) page3), allocCalls)
    else (some t1, allocCalls)

/-- copy_from_brk: read `n` bytes starting at `sector`; an absent page reads
as zeroes (memset), splitting at one page boundary like copy_to_brk. -/
def copy_from_brk (t : Store) (sector n : Nat) : List Nat :=
  let copy := copyLen sector n
  let first :=
    match brk_lookup_page t sector with
    | some page => (List.range copy).map (fun i => page.data (secOffset sector + i))
    | none => List.replicate copy 0
  if copy < n then
    let rest :=
      match brk_lookup_page t (nextSector sector n) with
      | some page => (List.range (n - copy)).map (fun i => page.data i)
      | none => List.replicate (n - copy) 0
    first ++ rest
  else first

/-- discard_from_brk: while at least one full page of length remains, zero
the page containing the current sector (zeroing, not freeing, to avoid
writeback deadlocks) and advance one page worth of sectors. -/
def discard_from_brk (t : Store) (sector n : Nat) : Store :=
  if PAGE_SIZE ≤ n then
    discard_from_brk (brk_zero_page t sector) (sector + (PAGE_SIZE >>> SECTOR_SHIFT))
      (n - PAGE_SIZE)
  else t
termination_by n
decreasing_by
  have : PAGE_SIZE = 4096 := by decide
  omega

inductive Rw where
  | read : Rw
  | reada : Rw
  | write : Rw
deriving DecidableEq

def Rw.isWrite : Rw → Bool
  | .write => true
  | _ => false

/-- One bio_vec: segment length in bytes and the segment's bytes (the page
contents starting at bv_offset, relevant for writes). -/
structure Bvec where
  len : Nat
  data : Nat → Nat

/-- One bio: start sector, total size in bytes, discard flag, direction, and
the ordered segments. -/
structure BioReq where
  sector : Nat
  size : Nat
  isDiscard : Bool
  rw : Rw
  segments : List Bvec

def bio_end_sector (b : BioReq) : Nat := b.sector + (b.size >>> SECTOR_SHIFT)

/-- brk_do_bvec: process one segment.  Reads copy out of the store (returned
as the optional byte list); writes run copy_to_brk_setup then copy_to_brk.
`none` propagates a copy-phase BUG. -/
def brk_do_bvec (t : Store) (bv : Bvec) (w : Bool) (sector : Nat) (o : Nat → Bool) :
    Option (Int × Store × Option (List Nat)) :=
  if w then
    match copy_to_brk_setup t sector bv.len o with
    | (err, t1) =>
      if err = 0 then
        match (copy_to_brk t1 bv.data sector bv.len).1 with
        | none => none
        | some t2 => some (0, t2, none)
      else some (err, t1, none)
  else
    some (0, t, some (copy_from_brk t sector bv.len))

/-- The bio_for_each_segment loop of brk_make_request: process segments in
order, advancing the sector by each segment's length in sectors, stopping at
the first failing segment.  With no segments the error stays at its initial
`-EIO`. -/
def brk_segments (w : Bool) (os : Nat → Nat → Bool) :
    List Bvec → Store → Nat → Nat → Option (Int × Store × List (List Nat))
  | [], t, _, _ => some (-EIOval, t, [])
  | bv :: rest, t, sector, k =>
    match brk_do_bvec t bv w sector (os k) with
    | none => none
    | some (err, t1, rd) =>
      if err = 0 then
        match rest with
        | [] => some (0, t1, rd.toList)
        | _ :: _ =>
          match brk_segments w os rest t1 (sector + (bv.len >>> SECTOR_SHIFT)) (k + 1) with
          | none => none
          | some (e, t2, rds) => some (e, t2, rd.toList ++ rds)
      else some (err, t1, rd.toList)

/-- brk_make_request: reject a bio whose end sector exceeds the capacity with
`-EIO` before touching anything; handle discards via discard_from_brk
(always reporting success); otherwise run the segment loop (READA is treated
as READ). -/
def brk_make_request (cap : Nat) (t : Store) (b : BioReq) (os : Nat → Nat → Bool) :
    Option (Int × Store × List (List Nat)) :=
  if bio_end_sector b > cap then
    some (-EIOval, t, [])
  else if b.isDiscard then
    some (0, discard_from_brk t b.sector b.size, [])
  else
    brk_segments b.rw.isWrite os b.segments t b.sector 0

/-- brk_ioctl: only BLKFLSBUF is supported; it frees all pages when at most
one opener holds the device, and fails with `-EBUSY` otherwise. -/
def brk_ioctl (t : Store) (cmd : Nat) (openers : Nat) : Option (Int × Store) :=
  if cmd ≠ BLKFLSBUF then some (-ENOTTY, t)
  else if openers ≤ 1 then
    match brk_free_pages t with
    | none => none
    | some t2 => some (0, t2)
  else some (-EBUSY, t)

/-- Keys under which pages are reachable. -/
def storeKeys (t : Store) : List Nat := t.map (·.1)

/-- Well-formedness of the radix tree model: strictly sorted keys. -/
def StoreWF (t : Store) : Prop := t.Pairwise (fun a b => a.1 < b.1)

/-- The store invariant: sorted distinct keys, and every page's recorded
index equals the key it is reachable under. -/
def StoreInv (t : Store) : Prop :=
  StoreWF t ∧ ∀ e ∈ t, e.2.index = e.1

/-! Arithmetic facts about the sector/page translation. -/

theorem PAGE_SIZE_eq : PAGE_SIZE = 4096 := by decide

theorem secOffset_eq (s : Nat) : secOffset s = s % 8 * 512 := by
  have h7 : PAGE_SECTORS - 1 = 2 ^ 3 - 1 := by decide
  rw [secOffset, h7, Nat.and_pow_two_sub_one_eq_mod, Nat.shiftLeft_eq]
  norm_num [SECTOR_SHIFT]

theorem pageIdx_eq (s : Nat) : pageIdx s = s / 8 := by
  rw [pageIdx, Nat.shiftRight_eq_div_pow]
  norm_num [PAGE_SECTORS_SHIFT, PAGE_SHIFT, SECTOR_SHIFT]

theorem shiftr9_eq (x : Nat) : x >>> SECTOR_SHIFT = x / 512 := by
  rw [Nat.shiftRight_eq_div_pow]
  norm_num [SECTOR_SHIFT]

theorem secOffset_le (s : Nat) : secOffset s ≤ 3584 := by
  rw [secOffset_eq]
  have : s % 8 < 8 := Nat.mod_lt _ (by norm_num)
  omega

theorem copyLen_le (s n : Nat) : copyLen s n ≤ n := Nat.min_le_left _ _

theorem copyLen_eq_of_le (s n : Nat) (h : n ≤ PAGE_SIZE - secOffset s) :
    copyLen s n = n := Nat.min_eq_left h

theorem copyLen_eq_of_cross (s n : Nat) (h : copyLen s n < n) :
    copyLen s n = PAGE_SIZE - secOffset s := by
  by_cases hc : n ≤ PAGE_SIZE - secOffset s
  · rw [copyLen_eq_of_le s n hc] at h
    omega
  · exact Nat.min_eq_right (by omega)

theorem cross_next_sector (s n : Nat) (h : copyLen s n < n) :
    nextSector s n = 8 * (s / 8) + 8 := by
  have h1 := copyLen_eq_of_cross s n h
  have h2 := secOffset_eq s
  have h3 : s % 8 < 8 := Nat.mod_lt _ (by norm_num)
  have h4 := Nat.div_add_mod s 8
  rw [nextSector, h1, shiftr9_eq, PAGE_SIZE_eq, h2]
  omega

theorem cross_pageIdx (s n : Nat) (h : copyLen s n < n) :
    pageIdx (nextSector s n) = pageIdx s + 1 := by
  rw [cross_next_sector s n h, pageIdx_eq, pageIdx_eq]
  omega

theorem cross_secOffset (s n : Nat) (h : copyLen s n < n) :
    secOffset (nextSector s n) = 0 := by
  rw [cross_next_sector s n h, secOffset_eq]
  omega

/-! Lemmas about the association-list radix tree model. -/

theorem radix_lookup_nil (idx : Nat) : radix_tree_lookup [] idx = none := rfl

theorem radix_lookup_cons (a : Nat × Page) (l : Store) (q : Nat) :
    radix_tree_lookup (a :: l) q =
      if a.1 = q then some a.2 else radix_tree_lookup l q := by
  by_cases h : a.1 = q
  · simp [radix_tree_lookup, List.find?_cons, h]
  · simp [radix_tree_lookup, List.find?_cons, h]

theorem lookup_update (t : Store) (idx : Nat) (p : Page) (q : Nat) :
    radix_tree_lookup (store_update t idx p) q =
      if q = idx then (radix_tree_lookup t idx).map (fun _ => p)
      else radix_tree_lookup t q := by
  induction t with
  | nil => by_cases h : q = idx <;> simp [store_update, radix_tree_lookup, h]
  | cons a l ih =>
    have hcons : store_update (a :: l) idx p =
        (if a.1 == idx then (idx, p) else a) :: store_update l idx p := by
      simp [store_update]
    rw [hcons]
    by_cases h1 : a.1 = idx
    · by_cases h2 : q = idx
      · subst h2
        simp [radix_lookup_cons, h1, ih]
      · simp [radix_lookup_cons, h1, h2, Ne.symm h2, ih]
    · by_cases h2 : q = idx
      · subst h2
        simp [radix_lookup_cons, h1, ih]
      · simp [radix_lookup_cons, h1, h2, ih]

theorem storeKeys_update (t : Store) (idx : Nat) (p : Page) :
    storeKeys (store_update t idx p) = storeKeys t := by
  simp only [storeKeys, store_update, List.map_map]
  apply List.map_congr_left
  intro e _
  by_cases h : e.1 = idx <;> simp [Function.comp, h]

theorem mem_insert_sorted {t : Store} {idx : Nat} {p : Page} {b : Nat × Page}
    (h : b ∈ store_insert_sorted t idx p) : b ∈ t ∨ b = (idx, p) := by
  induction t with
  | nil =>
    simp only [store_insert_sorted, List.mem_singleton] at h
    exact Or.inr h
  | cons a l ih =>
    simp only [store_insert_sorted] at h
    by_cases hc : idx < a.1
    · rw [if_pos hc] at h
      rcases List.mem_cons.1 h with h | h
      · exact Or.inr h
      · exact Or.inl h
    · rw [if_neg hc] at h
      rcases List.mem_cons.1 h with h | h
      · exact Or.inl (h ▸ List.mem_cons_self a l)
      · rcases ih h with h | h
        · exact Or.inl (List.mem_cons_of_mem a h)
        · exact Or.inr h

theorem lookup_insert_self (idx : Nat) (p : Page) :
    ∀ t : Store, radix_tree_lookup t idx = none →
      radix_tree_lookup (store_insert_sorted t idx p) idx = some p := by
  intro t
  induction t with
  | nil => intro _; simp [store_insert_sorted, radix_lookup_cons]
  | cons a l ih =>
    intro h
    rw [radix_lookup_cons] at h
    by_cases ha : a.1 = idx
    · simp [ha] at h
    · rw [if_neg ha] at h
      simp only [store_insert_sorted]
      by_cases hlt : idx < a.1
      · rw [if_pos hlt, radix_lookup_cons, if_pos rfl]
      · rw [if_neg hlt, radix_lookup_cons, if_neg ha]
        exact ih h

theorem lookup_insert_other (idx q : Nat) (p : Page) (hq : q ≠ idx) :
    ∀ t : Store,
      radix_tree_lookup (store_insert_sorted t idx p) q = radix_tree_lookup t q := by
  intro t
  induction t with
  | nil =>
    simp only [store_insert_sorted]
    rw [radix_lookup_cons, if_neg (fun h => hq h.symm)]
  | cons a l ih =>
    simp only [store_insert_sorted]
    by_cases hlt : idx < a.1
    · rw [if_pos hlt, radix_lookup_cons, if_neg (fun h => hq h.symm)]
    · rw [if_neg hlt, radix_lookup_cons, ih, radix_lookup_cons]

theorem lookup_filter_ne (idx q : Nat) :
    ∀ t : Store,
      radix_tree_lookup (t.filter (fun e => e.1 != idx)) q =
        if q = idx then none else radix_tree_lookup t q := by
  intro t
  induction t with
  | nil => by_cases h : q = idx <;> simp [radix_tree_lookup, h]
  | cons a l ih =>
    by_cases h1 : a.1 = idx
    · have hf : (a.1 != idx) = false := by simp [h1]
      rw [List.filter_cons, hf]
      simp only [Bool.false_eq_true, if_false]
      rw [ih]
      by_cases h2 : q = idx
      · rw [if_pos h2, if_pos h2]
      · rw [if_neg h2, if_neg h2, radix_lookup_cons, if_neg (by omega)]
    · have hf : (a.1 != idx) = true := by simp [h1]
      rw [List.filter_cons, hf]
      simp only [if_true]
      rw [radix_lookup_cons, radix_lookup_cons (l := l), ih]
      by_cases h2 : q = idx
      · rw [if_pos h2, if_neg (by omega), if_pos h2]
      · rw [if_neg h2, if_neg h2]

/-! Preservation of well-formedness and of the index-equals-key invariant. -/

theorem wf_update {t : Store} (h : StoreWF t) (idx : Nat) (p : Page) :
    StoreWF (store_update t idx p) := by
  unfold StoreWF store_update
  rw [List.pairwise_map]
  refine List.Pairwise.imp ?_ h
  intro a b hab
  by_cases h1 : a.1 = idx <;> by_cases h2 : b.1 = idx <;> simp [h1, h2] <;> omega

theorem wf_insert (idx : Nat) (p : Page) :
    ∀ t : Store, StoreWF t → radix_tree_lookup t idx = none →
      StoreWF (store_insert_sorted t idx p) := by
  intro t
  induction t with
  | nil => intro _ _; simp [store_insert_sorted, StoreWF]
  | cons a l ih =>
    intro h hnone
    rw [radix_lookup_cons] at hnone
    by_cases ha : a.1 = idx
    · simp [ha] at hnone
    · rw [if_neg ha] at hnone
      unfold StoreWF at h ⊢
      rw [List.pairwise_cons] at h
      obtain ⟨hal, hl⟩ := h
      simp only [store_insert_sorted]
      by_cases hlt : idx < a.1
      · rw [if_pos hlt]
        refine List.Pairwise.cons ?_ (List.Pairwise.cons hal hl)
        intro b hb
        rcases List.mem_cons.1 hb with rfl | hb
        · exact hlt
        · exact Nat.lt_trans hlt (hal b hb)
      · rw [if_neg hlt]
        refine List.Pairwise.cons ?_ (ih hl hnone)
        intro b hb
        rcases mem_insert_sorted hb with hb | rfl
        · exact hal b hb
        · omega

theorem inv_update {t : Store} (h : StoreInv t) {idx : Nat} {p : Page}
    (hp : p.index = idx) : StoreInv (store_update t idx p) := by
  refine ⟨wf_update h.1 idx p, ?_⟩
  intro e he
  simp only [store_update, List.mem_map] at he
  obtain ⟨a, ha, rfl⟩ := he
  by_cases h1 : a.1 = idx
  · simp [h1, hp]
  · simpa [h1] using h.2 a ha

theorem inv_insert {t : Store} (h : StoreInv t) {idx : Nat} {p : Page}
    (hnone : radix_tree_lookup t idx = none) (hp : p.index = idx) :
    StoreInv (store_insert_sorted t idx p) := by
  refine ⟨wf_insert idx p t h.1 hnone, ?_⟩
  intro e he
  rcases mem_insert_sorted he with he | rfl
  · exact h.2 e he
  · exact hp

theorem inv_filter {t : Store} (h : StoreInv t) (f : Nat × Page → Bool) :
    StoreInv (t.filter f) :=
  ⟨List.Pairwise.sublist (List.filter_sublist t) h.1,
   fun e he => h.2 e (List.mem_of_mem_filter he)⟩

/-- Under the invariant, a looked-up page's recorded index equals its key
(so the `BUG_ON(page && page->index != idx)` in brk_lookup_page never fires). -/
theorem lookup_index {t : Store} (h : StoreInv t) {idx : Nat} {q : Page}
    (hl : radix_tree_lookup t idx = some q) : q.index = idx := by
  unfold radix_tree_lookup at hl
  cases hf : t.find? (fun e => e.1 == idx) with
  | none => rw [hf] at hl; simp at hl
  | some e =>
    rw [hf] at hl
    simp only [Option.map_some', Option.some.injEq] at hl
    have hm := List.mem_of_find?_eq_some hf
    have hp : e.1 = idx := by simpa using List.find?_some hf
    have he := h.2 e hm
    rw [← hl, he, hp]

/-! Characterization of the locked insertion section. -/

theorem insert_locked_of_none {t : Store} {idx : Nat} (page : Page)
    (hl : radix_tree_lookup t idx = none) :
    brk_insert_locked t idx page =
      ({ page with index := idx },
        store_insert_sorted t idx { page with index := idx }) := by
  unfold brk_insert_locked radix_tree_insert
  simp [hl]

theorem insert_locked_of_some {t : Store} {idx : Nat} (page : Page) {q : Page}
    (hl : radix_tree_lookup t idx = some q) :
    brk_insert_locked t idx page = (q, t) := by
  unfold brk_insert_locked radix_tree_insert
  simp [hl]

/-! Behaviour of brk_insert_page. -/

theorem insert_page_lookup_self (t : Store) (sector : Nat) (a pr : Bool)
    (h : (brk_insert_page t sector a pr).1.isSome) :
    radix_tree_lookup (brk_insert_page t sector a pr).2 (pageIdx sector) =
      (brk_insert_page t sector a pr).1 := by
  cases hl : radix_tree_lookup t (pageIdx sector) with
  | some p =>
    simp [brk_insert_page, brk_lookup_page, hl]
  | none =>
    cases a with
    | false => simp [brk_insert_page, brk_lookup_page, hl] at h
    | true =>
      cases pr with
      | false => simp [brk_insert_page, brk_lookup_page, hl] at h
      | true =>
        simp only [brk_insert_page, brk_lookup_page, hl, if_true]
        rw [insert_locked_of_none zeroFilledPage hl]
        exact lookup_insert_self _ _ t hl

theorem insert_page_mono (t : Store) (sector : Nat) (a pr : Bool)
    (q : Nat) (r : Page) (hq : radix_tree_lookup t q = some r) :
    radix_tree_lookup (brk_insert_page t sector a pr).2 q = some r := by
  cases hl : radix_tree_lookup t (pageIdx sector) with
  | some p =>
    simp only [brk_insert_page, brk_lookup_page, hl]
    exact hq
  | none =>
    cases a with
    | false => simp only [brk_insert_page, brk_lookup_page, hl, Bool.false_eq_true,
        if_false]; exact hq
    | true =>
      cases pr with
      | false => simp only [brk_insert_page, brk_lookup_page, hl, Bool.false_eq_true,
          if_true, if_false]; exact hq
      | true =>
        simp only [brk_insert_page, brk_lookup_page, hl, if_true]
        rw [insert_locked_of_none zeroFilledPage hl]
        by_cases hqi : q = pageIdx sector
        · rw [hqi] at hq
          rw [hq] at hl
          exact absurd hl (by simp)
        · rw [lookup_insert_other _ _ _ hqi t]
          exact hq

theorem insert_page_inv {t : Store} (h : StoreInv t) (sector : Nat) (a pr : Bool) :
    StoreInv (brk_insert_page t sector a pr).2 := by
  cases hl : radix_tree_lookup t (pageIdx sector) with
  | some p =>
    simp only [brk_insert_page, brk_lookup_page, hl]
    exact h
  | none =>
    cases a with
    | false => simp only [brk_insert_page, brk_lookup_page, hl, Bool.false_eq_true,
        if_false]; exact h
    | true =>
      cases pr with
      | false => simp only [brk_insert_page, brk_lookup_page, hl, Bool.false_eq_true,
          if_true, if_false]; exact h
      | true =>
        simp only [brk_insert_page, brk_lookup_page, hl, if_true]
        rw [insert_locked_of_none zeroFilledPage hl]
        exact inv_insert h hl rfl

theorem insert_page_none_store (t : Store) (sector : Nat) (a pr : Bool)
    (h : (brk_insert_page t sector a pr).1 = none) :
    (brk_insert_page t sector a pr).2 = t := by
  cases hl : radix_tree_lookup t (pageIdx sector) with
  | some p => simp [brk_insert_page, brk_lookup_page, hl] at h
  | none =>
    cases a with
    | false => simp [brk_insert_page, brk_lookup_page, hl]
    | true =>
      cases pr with
      | false => simp [brk_insert_page, brk_lookup_page, hl]
      | true => simp [brk_insert_page, brk_lookup_page, hl] at h

/-! Case analysis of copy_to_brk_setup. -/

theorem setup_cases (t : Store) (sector n : Nat) (o : Nat → Bool) :
    (∃ t1, brk_insert_page t sector (o 0) (o 1) = (none, t1) ∧
      copy_to_brk_setup t sector n o = (-ENOSPC, t1)) ∨
    (∃ p1 t1, brk_insert_page t sector (o 0) (o 1) = (some p1, t1) ∧
      ((¬ copyLen sector n < n ∧ copy_to_brk_setup t sector n o = (0, t1)) ∨
       (copyLen sector n < n ∧
         ((∃ t2, brk_insert_page t1 (nextSector sector n) (o 2) (o 3) = (none, t2) ∧
            copy_to_brk_setup t sector n o = (-ENOSPC, t2)) ∨
          (∃ p2 t2, brk_insert_page t1 (nextSector sector n) (o 2) (o 3) = (some p2, t2) ∧
            copy_to_brk_setup t sector n o = (0, t2)))))) := by
  unfold copy_to_brk_setup
  cases h1 : brk_insert_page t sector (o 0) (o 1) with
  | mk op1 t1 =>
    cases op1 with
    | none => exact Or.inl ⟨t1, rfl, rfl⟩
    | some p1 =>
      refine Or.inr ⟨p1, t1, rfl, ?_⟩
      by_cases hc : copyLen sector n < n
      · refine Or.inr ⟨hc, ?_⟩
        cases h2 : brk_insert_page t1 (nextSector sector n) (o 2) (o 3) with
        | mk op2 t2 =>
          cases op2 with
          | none => exact Or.inl ⟨t2, rfl, by simp [hc, h2]⟩
          | some p2 => exact Or.inr ⟨p2, t2, rfl, by simp [hc, h2]⟩
      · exact Or.inl ⟨hc, by simp [hc]⟩

theorem neg_ENOSPC_ne_zero : (-ENOSPC : Int) ≠ 0 := by decide

/-- After a successful setup, the page for the first sector is present, and
when the range crosses the page boundary so is the page for the second. -/
theorem setup_ok_present (t : Store) (sector n : Nat) (o : Nat → Bool)
    (h : (copy_to_brk_setup t sector n o).1 = 0) :
    (radix_tree_lookup (copy_to_brk_setup t sector n o).2 (pageIdx sector)).isSome ∧
    (copyLen sector n < n →
      (radix_tree_lookup (copy_to_brk_setup t sector n o).2
        (pageIdx (nextSector sector n))).isSome) := by
  rcases setup_cases t sector n o with ⟨t1, h1, hs⟩ | ⟨p1, t1, h1, hrest⟩
  · rw [hs] at h
    exact absurd h neg_ENOSPC_ne_zero
  · have hl1 : radix_tree_lookup t1 (pageIdx sector) = some p1 := by
      have hx := insert_page_lookup_self t sector (o 0) (o 1)
      rw [h1] at hx
      exact hx (by simp)
    rcases hrest with ⟨hc, hs⟩ | ⟨hc, hrest⟩
    · rw [hs]
      exact ⟨by simp [hl1], fun hcc => absurd hcc hc⟩
    · rcases hrest with ⟨t2, h2, hs⟩ | ⟨p2, t2, h2, hs⟩
      · rw [hs] at h
        exact absurd h neg_ENOSPC_ne_zero
      · rw [hs]
        have hm : radix_tree_lookup t2 (pageIdx sector) = some p1 := by
          have hx := insert_page_mono t1 (nextSector sector n) (o 2) (o 3) _ _ hl1
          rw [h2] at hx
          exact hx
        have hl2 : radix_tree_lookup t2 (pageIdx (nextSector sector n)) = some p2 := by
          have hx := insert_page_lookup_self t1 (nextSector sector n) (o 2) (o 3)
          rw [h2] at hx
          exact hx (by simp)
        exact ⟨by simp [hm], fun _ => by simp [hl2]⟩

/-! Equations for the two copy phases. -/

theorem copy_to_brk_eq_single {t : Store} {src : Nat → Nat} {sector n : Nat} {p1 : Page}
    (hp1 : radix_tree_lookup t (pageIdx sector) = some p1)
    (hc : ¬ copyLen sector n < n) :
    copy_to_brk t src sector n =
      (some (store_update t (pageIdx sector) (pageWriteLo p1 src sector n)), 1) := by
  simp [copy_to_brk, brk_lookup_page, hp1, hc, pageWriteLo]

theorem copy_to_brk_eq_cross {t : Store} {src : Nat → Nat} {sector n : Nat} {p1 p2 : Page}
    (hp1 : radix_tree_lookup t (pageIdx sector) = some p1)
    (hc : copyLen sector n < n)
    (hp2 : radix_tree_lookup t (pageIdx (nextSector sector n)) = some p2) :
    copy_to_brk t src sector n =
      (some (store_update
        (store_update t (pageIdx sector) (pageWriteLo p1 src sector n))
        (pageIdx (nextSector sector n)) (pageWriteHi p2 src sector n)), 1) := by
  have hne : pageIdx (nextSector sector n) ≠ pageIdx sector := by
    rw [cross_pageIdx sector n hc]
    omega
  have hl2 : radix_tree_lookup
      (store_update t (pageIdx sector) (pageWriteLo p1 src sector n))
      (pageIdx (nextSector sector n)) = some p2 := by
    rw [lookup_update, if_neg hne]
    exact hp2
  simp only [pageWriteLo] at hl2
  simp [copy_to_brk, brk_lookup_page, hp1, hc, hl2, pageWriteLo, pageWriteHi]

theorem copy_from_eq_single {t : Store} {sector n : Nat} {p1 : Page}
    (hp1 : radix_tree_lookup t (pageIdx sector) = some p1)
    (hc : ¬ copyLen sector n < n) :
    copy_from_brk t sector n =
      (List.range (copyLen sector n)).map (fun i => p1.data (secOffset sector + i)) := by
  simp [copy_from_brk, brk_lookup_page, hp1, hc]

theorem copy_from_eq_cross {t : Store} {sector n : Nat} {p1 p2 : Page}
    (hp1 : radix_tree_lookup t (pageIdx sector) = some p1)
    (hc : copyLen sector n < n)
    (hp2 : radix_tree_lookup t (pageIdx (nextSector sector n)) = some p2) :
    copy_from_brk t sector n =
      (List.range (copyLen sector n)).map (fun i => p1.data (secOffset sector + i)) ++
      (List.range (n - copyLen sector n)).map (fun i => p2.data i) := by
  simp [copy_from_brk, brk_lookup_page, hp1, hp2, hc]

theorem copy_from_eq_none_single {t : Store} {sector n : Nat}
    (hp1 : radix_tree_lookup t (pageIdx sector) = none)
    (hc : ¬ copyLen sector n < n) :
    copy_from_brk t sector n = List.replicate (copyLen sector n) 0 := by
  simp [copy_from_brk, brk_lookup_page, hp1, hc]

theorem copy_from_eq_none_cross {t : Store} {sector n : Nat}
    (hp1 : radix_tree_lookup t (pageIdx sector) = none)
    (hc : copyLen sector n < n)
    (hp2 : radix_tree_lookup t (pageIdx (nextSector sector n)) = none) :
    copy_from_brk t sector n =
      List.replicate (copyLen sector n) 0 ++ List.replicate (n - copyLen sector n) 0 := by
  simp [copy_from_brk, brk_lookup_page, hp1, hp2, hc]

/-- Write-then-read roundtrip at the copy-phase level: when the page(s) the
range needs are present, copy_to_brk succeeds and copy_from_brk returns
exactly the source bytes. -/
theorem copy_roundtrip (t : Store) (src : Nat → Nat) (sector n : Nat)
    (h1 : (radix_tree_lookup t (pageIdx sector)).isSome)
    (h2 : copyLen sector n < n →
      (radix_tree_lookup t (pageIdx (nextSector sector n))).isSome) :
    ∃ t2, (copy_to_brk t src sector n).1 = some t2 ∧
      copy_from_brk t2 sector n = (List.range n).map src := by
  obtain ⟨p1, hp1⟩ := Option.isSome_iff_exists.1 h1
  by_cases hc : copyLen sector n < n
  · obtain ⟨p2, hp2⟩ := Option.isSome_iff_exists.1 (h2 hc)
    have hne : pageIdx (nextSector sector n) ≠ pageIdx sector := by
      rw [cross_pageIdx sector n hc]
      omega
    refine ⟨store_update
        (store_update t (pageIdx sector) (pageWriteLo p1 src sector n))
        (pageIdx (nextSector sector n)) (pageWriteHi p2 src sector n),
      by rw [copy_to_brk_eq_cross hp1 hc hp2], ?_⟩
    have hl1 : radix_tree_lookup
        (store_update
          (store_update t (pageIdx sector) (pageWriteLo p1 src sector n))
          (pageIdx (nextSector sector n)) (pageWriteHi p2 src sector n))
        (pageIdx sector) = some (pageWriteLo p1 src sector n) := by
      rw [lookup_update, if_neg (Ne.symm hne), lookup_update, if_pos rfl, hp1]
      rfl
    have hl2 : radix_tree_lookup
        (store_update
          (store_update t (pageIdx sector) (pageWriteLo p1 src sector n))
          (pageIdx (nextSector sector n)) (pageWriteHi p2 src sector n))
        (pageIdx (nextSector sector n)) = some (pageWriteHi p2 src sector n) := by
      rw [lookup_update, if_pos rfl, lookup_update, if_neg hne, hp2]
      rfl
    rw [copy_from_eq_cross hl1 hc hl2]
    have hle := copyLen_le sector n
    have hsplit : n = copyLen sector n + (n - copyLen sector n) := by omega
    have hranges : List.range n = List.range (copyLen sector n + (n - copyLen sector n)) := by
      rw [← hsplit]
    have hsr : (List.range n).map src =
        (List.range (copyLen sector n)).map src ++
          (List.range (n - copyLen sector n)).map (fun i => src (copyLen sector n + i)) := by
      rw [hranges, List.range_add, List.map_append, List.map_map]
      rfl
    rw [hsr]
    congr 1
    · apply List.map_congr_left
      intro i hi
      have hi2 := List.mem_range.1 hi
      simp only [pageWriteLo, memcpyBytes]
      rw [if_pos (by omega)]
      congr 1
      omega
    · apply List.map_congr_left
      intro i hi
      have hi2 := List.mem_range.1 hi
      simp only [pageWriteHi, memcpyBytes]
      rw [if_pos (by omega)]
      simp
  · have hcopy : copyLen sector n = n := by
      have := copyLen_le sector n
      omega
    refine ⟨store_update t (pageIdx sector) (pageWriteLo p1 src sector n),
      by rw [copy_to_brk_eq_single hp1 hc], ?_⟩
    have hl1 : radix_tree_lookup
        (store_update t (pageIdx sector) (pageWriteLo p1 src sector n))
        (pageIdx sector) = some (pageWriteLo p1 src sector n) := by
      rw [lookup_update, if_pos rfl, hp1]
      rfl
    rw [copy_from_eq_single hl1 hc, hcopy]
    apply List.map_congr_left
    intro i hi
    have hi2 := List.mem_range.1 hi
    simp only [pageWriteLo, memcpyBytes]
    rw [if_pos (by omega)]
    congr 1
    omega

/-! Behaviour of brk_zero_page and discard_from_brk. -/

theorem brk_zero_page_of_none {t : Store} {sector : Nat}
    (hl : radix_tree_lookup t (pageIdx sector) = none) :
    brk_zero_page t sector = t := by
  simp [brk_zero_page, brk_lookup_page, hl]

theorem brk_zero_page_of_some {t : Store} {sector : Nat} {p : Page}
    (hl : radix_tree_lookup t (pageIdx sector) = some p) :
    brk_zero_page t sector = store_update t (pageIdx sector) (clear_highpage p) := by
  simp [brk_zero_page, brk_lookup_page, hl]

theorem zero_page_lookup (t : Store) (sector q : Nat) :
    radix_tree_lookup (brk_zero_page t sector) q =
      if q = pageIdx sector then (radix_tree_lookup t q).map clear_highpage
      else radix_tree_lookup t q := by
  cases hl : radix_tree_lookup t (pageIdx sector) with
  | none =>
    rw [brk_zero_page_of_none hl]
    by_cases h : q = pageIdx sector
    · rw [if_pos h, h, hl]
      rfl
    · rw [if_neg h]
  | some p =>
    rw [brk_zero_page_of_some hl, lookup_update]
    by_cases h : q = pageIdx sector
    · rw [if_pos h, if_pos h, h, hl]
      rfl
    · rw [if_neg h, if_neg h]

theorem discard_lookup : ∀ (n : Nat) (t : Store) (sector q : Nat),
    radix_tree_lookup (discard_from_brk t sector n) q =
      if pageIdx sector ≤ q ∧ q < pageIdx sector + n / PAGE_SIZE
      then (radix_tree_lookup t q).map clear_highpage
      else radix_tree_lookup t q := by
  intro n
  induction n using Nat.strong_induction_on with
  | _ n ih =>
    intro t sector q
    by_cases hge : PAGE_SIZE ≤ n
    · rw [discard_from_brk, if_pos hge]
      rw [ih (n - PAGE_SIZE) (by rw [PAGE_SIZE_eq] at hge ⊢; omega)]
      rw [zero_page_lookup]
      have ha : pageIdx (sector + (PAGE_SIZE >>> SECTOR_SHIFT)) = pageIdx sector + 1 := by
        have h8 : PAGE_SIZE >>> SECTOR_SHIFT = 8 := by decide
        rw [h8, pageIdx_eq, pageIdx_eq]
        omega
      have hdiv : (n - PAGE_SIZE) / PAGE_SIZE = n / PAGE_SIZE - 1 := by
        rw [PAGE_SIZE_eq] at hge ⊢
        omega
      have hdiv1 : 1 ≤ n / PAGE_SIZE := by
        rw [PAGE_SIZE_eq] at hge ⊢
        omega
      rw [ha, hdiv]
      split_ifs with h1 h2 h3 h4 h5 h6 h7 <;>
        first
          | rfl
          | (exfalso; omega)
    · rw [discard_from_brk, if_neg hge]
      rw [if_neg]
      rw [PAGE_SIZE_eq] at hge ⊢
      omega

/-! brk_free_pages empties the store. -/

theorem gang_lookup_all {t : Store} {pos : Nat} (h : ∀ e ∈ t, pos ≤ e.1) :
    radix_tree_gang_lookup t pos FREE_BATCH = t.take FREE_BATCH := by
  unfold radix_tree_gang_lookup
  congr 1
  rw [List.filter_eq_self]
  intro e he
  simpa using h e he

theorem filter_head_eq_tail {a : Nat × Page} {t2 : Store} (h : StoreWF (a :: t2)) :
    (a :: t2).filter (fun e => e.1 != a.1) = t2 := by
  rw [List.filter_cons]
  have hfa : (a.1 != a.1) = false := by simp
  rw [hfa]
  simp only [Bool.false_eq_true, if_false]
  rw [List.filter_eq_self]
  intro e he
  have := (List.pairwise_cons.1 h).1 e he
  simp only [bne_iff_ne, ne_eq]
  omega

theorem free_batch_take : ∀ (k : Nat) (t : Store) (pos : Nat),
    StoreInv t → (∀ e ∈ t, pos ≤ e.1) →
    (brk_free_batch t pos (t.take k) = some (t, pos) ∧ t.take k = []) ∨
    (∃ pos2, brk_free_batch t pos (t.take k) = some (t.drop k, pos2) ∧
      ∀ e ∈ t.drop k, pos2 < e.1) := by
  intro k
  induction k with
  | zero => intro t pos _ _; exact Or.inl ⟨rfl, rfl⟩
  | succ k ih =>
    intro t pos hInv hpos
    cases t with
    | nil => exact Or.inl ⟨rfl, rfl⟩
    | cons a t2 =>
      have ha : a.2.index = a.1 := hInv.2 a (List.mem_cons_self a t2)
      have hpa : pos ≤ a.1 := hpos a (List.mem_cons_self a t2)
      have hla : radix_tree_lookup (a :: t2) a.1 = some a.2 := by
        rw [radix_lookup_cons, if_pos rfl]
      have hInv2 : StoreInv t2 :=
        ⟨(List.pairwise_cons.1 hInv.1).2, fun e he => hInv.2 e (List.mem_cons_of_mem a he)⟩
      have hpos2 : ∀ e ∈ t2, a.1 ≤ e.1 := by
        intro e he
        have := (List.pairwise_cons.1 hInv.1).1 e he
        omega
      have hstep : brk_free_batch (a :: t2) pos ((a :: t2).take (k + 1)) =
          brk_free_batch t2 a.1 (t2.take k) := by
        rw [List.take_succ_cons]
        simp only [brk_free_batch, ha]
        rw [if_neg (by omega)]
        simp only [radix_tree_delete, hla]
        rw [filter_head_eq_tail hInv.1]
      have hdrop : (a :: t2).drop (k + 1) = t2.drop k := List.drop_succ_cons
      rcases ih t2 a.1 hInv2 hpos2 with ⟨heq, hemp⟩ | ⟨pos2, heq, hlt⟩
      · have hdropk : t2.drop k = t2 := by
          rcases List.take_eq_nil_iff.1 hemp with rfl | rfl
          · rfl
          · exact List.drop_nil
        refine Or.inr ⟨a.1, ?_, ?_⟩
        · rw [hstep, heq, hdrop, hdropk]
        · intro e he
          rw [hdrop, hdropk] at he
          exact (List.pairwise_cons.1 hInv.1).1 e he
      · refine Or.inr ⟨pos2, ?_, ?_⟩
        · rw [hstep, heq, hdrop]
        · intro e he
          rw [hdrop] at he
          exact hlt e he

theorem inv_drop {t : Store} (h : StoreInv t) (k : Nat) : StoreInv (t.drop k) :=
  ⟨List.Pairwise.sublist (List.drop_sublist k t) h.1,
   fun e he => h.2 e (List.mem_of_mem_drop he)⟩

theorem free_loop_nil (pos : Nat) : brk_free_pages_loop [] pos = some [] := by
  rw [brk_free_pages_loop]
  simp [radix_tree_gang_lookup, brk_free_batch, FREE_BATCH]

theorem free_loop_empties : ∀ (N : Nat) (t : Store) (pos : Nat), t.length = N →
    StoreInv t → (∀ e ∈ t, pos ≤ e.1) →
    brk_free_pages_loop t pos = some [] := by
  intro N
  induction N using Nat.strong_induction_on with
  | _ N ih =>
    intro t pos hN hInv hpos
    have hgang := gang_lookup_all hpos
    rcases free_batch_take FREE_BATCH t pos hInv hpos with ⟨heq, hemp⟩ | ⟨pos2, heq, hlt⟩
    · have ht : t = [] := by
        rcases List.take_eq_nil_iff.1 hemp with h16 | rfl
        · simp [FREE_BATCH] at h16
        · rfl
      subst ht
      exact free_loop_nil pos
    · rw [brk_free_pages_loop]
      split
      · next hnone =>
        rw [hgang, heq] at hnone
        exact absurd hnone (by simp)
      · next t2 pos3 hsome =>
        rw [hgang, heq] at hsome
        have ht2 : t2 = t.drop FREE_BATCH := by
          exact (Prod.mk.injEq _ _ _ _ ▸ (Option.some.injEq _ _ ▸ hsome :
            (t.drop FREE_BATCH, pos2) = (t2, pos3))).1.symm
        have hp3 : pos3 = pos2 := by
          exact (Prod.mk.injEq _ _ _ _ ▸ (Option.some.injEq _ _ ▸ hsome :
            (t.drop FREE_BATCH, pos2) = (t2, pos3))).2.symm
        subst ht2
        subst hp3
        split
        · next hlen =>
          rw [hgang, List.length_take] at hlen
          have h16 : FREE_BATCH ≤ t.length := by
            rw [Nat.min_def] at hlen
            split at hlen <;> omega
          apply ih (t.drop FREE_BATCH).length
          · rw [List.length_drop]
            have : (0 : Nat) < FREE_BATCH := by simp [FREE_BATCH]
            omega
          · rfl
          · exact inv_drop hInv FREE_BATCH
          · intro e he
            have := hlt e he
            omega
        · next hlen =>
          rw [hgang, List.length_take] at hlen
          have hlen2 : t.length < FREE_BATCH := by
            rw [Nat.min_def] at hlen
            split at hlen <;> omega
          rw [List.drop_eq_nil_of_le (by omega)]

theorem brk_free_pages_empties {t : Store} (h : StoreInv t) :
    brk_free_pages t = some [] := by
  unfold brk_free_pages
  exact free_loop_empties t.length t 0 rfl h (fun e _ => Nat.zero_le _)

theorem brk_ioctl_flush {t : Store} (h : StoreInv t) {openers : Nat} (ho : openers ≤ 1) :
    brk_ioctl t BLKFLSBUF openers = some (0, []) := by
  unfold brk_ioctl
  rw [if_neg (by simp), if_pos ho, brk_free_pages_empties h]

theorem copy_from_empty (sector n : Nat) :
    copy_from_brk [] sector n = List.replicate n 0 := by
  by_cases hc : copyLen sector n < n
  · rw [copy_from_eq_none_cross (radix_lookup_nil _) hc (radix_lookup_nil _),
      ← List.replicate_add]
    congr 1
    have := copyLen_le sector n
    omega
  · rw [copy_from_eq_none_single (radix_lookup_nil _) hc]
    congr 1
    have := copyLen_le sector n
    omega

/-! Remaining arithmetic helpers. -/

theorem SECTOR_SIZE_eq : SECTOR_SIZE = 512 := by decide

theorem PAGE_SECTORS_eq : PAGE_SECTORS = 8 := by decide

theorem shiftl9_eq (x : Nat) : x <<< SECTOR_SHIFT = x * 512 := by
  rw [Nat.shiftLeft_eq]
  norm_num [SECTOR_SHIFT]

theorem copyLen_lt_iff (s n : Nat) :
    copyLen s n < n ↔ PAGE_SIZE - secOffset s < n := by
  rw [copyLen, Nat.min_def]
  split <;> omega

/-! Behaviour of discard on the key set. -/

theorem zero_page_keys (t : Store) (sector : Nat) :
    storeKeys (brk_zero_page t sector) = storeKeys t := by
  cases hl : radix_tree_lookup t (pageIdx sector) with
  | none => rw [brk_zero_page_of_none hl]
  | some p => rw [brk_zero_page_of_some hl, storeKeys_update]

theorem discard_keys : ∀ (n : Nat) (t : Store) (sector : Nat),
    storeKeys (discard_from_brk t sector n) = storeKeys t := by
  intro n
  induction n using Nat.strong_induction_on with
  | _ n ih =>
    intro t sector
    by_cases hge : PAGE_SIZE ≤ n
    · rw [discard_from_brk, if_pos hge,
        ih (n - PAGE_SIZE) (by rw [PAGE_SIZE_eq] at hge ⊢; omega), zero_page_keys]
    · rw [discard_from_brk, if_neg hge]

/-! Claim theorems. -/

/-- Claim C1: for a sector range satisfying the single-boundary caller
guarantee, a successful write (copy_to_brk_setup reporting 0 followed by
copy_to_brk) and a read of the same range returns exactly the written
bytes, including ranges that straddle a page boundary; the bytes stored by
the memcpy are the source bytes verbatim, untouched by the vestigial digest
computation. -/
theorem claim_C1 (t : Store) (src : Nat → Nat) (sector n : Nat) (o : Nat → Bool)
    (hrange : secOffset sector + n ≤ 2 * PAGE_SIZE)
    (hsetup : (copy_to_brk_setup t sector n o).1 = 0) :
    ∃ t2, (copy_to_brk (copy_to_brk_setup t sector n o).2 src sector n).1 = some t2 ∧
      copy_from_brk t2 sector n = (List.range n).map src := by
  obtain ⟨h1, h2⟩ := setup_ok_present t sector n o hsetup
  exact copy_roundtrip _ src sector n h1 h2

theorem claim_C1_witness :
    secOffset 7 + 600 ≤ 2 * PAGE_SIZE ∧
    (copy_to_brk_setup [] 7 600 (fun _ => true)).1 = 0 ∧
    ∃ t2, (copy_to_brk (copy_to_brk_setup [] 7 600 (fun _ => true)).2
        (fun i => i % 256) 7 600).1 = some t2 ∧
      copy_from_brk t2 7 600 = (List.range 600).map (fun i => i % 256) :=
  ⟨by decide, by decide,
   claim_C1 [] (fun i => i % 256) 7 600 (fun _ => true) (by decide) (by decide)⟩

/-- Claim C2: a read of a valid range none of whose touched page indices has
an entry returns all-zero bytes of the requested length; the second page is
touched (and so required absent) only when the range actually crosses the
page boundary; absence of a page is handled by memset, never an error
(copy_from_brk is total). -/
theorem claim_C2 (t : Store) (sector n : Nat)
    (h1 : brk_lookup_page t sector = none)
    (h2 : copyLen sector n < n → brk_lookup_page t (nextSector sector n) = none) :
    copy_from_brk t sector n = List.replicate n 0 := by
  unfold brk_lookup_page at h1 h2
  by_cases hc : copyLen sector n < n
  · rw [copy_from_eq_none_cross h1 hc (h2 hc), ← List.replicate_add]
    congr 1
    have := copyLen_le sector n
    omega
  · rw [copy_from_eq_none_single h1 hc]
    congr 1
    have := copyLen_le sector n
    omega

theorem claim_C2_witness :
    brk_lookup_page [(1, Page.mk 1 (fun _ => 9))] 0 = none ∧
    (copyLen 0 4096 < 4096 →
      brk_lookup_page [(1, Page.mk 1 (fun _ => 9))] (nextSector 0 4096) = none) ∧
    copy_from_brk [(1, Page.mk 1 (fun _ => 9))] 0 4096 = List.replicate 4096 0 :=
  ⟨rfl, fun h => absurd h (by decide),
   claim_C2 [(1, Page.mk 1 (fun _ => 9))] 0 4096 rfl (fun h => absurd h (by decide))⟩

/-- Claim C3 (code-bug evidence): the non-blocking data-copy phase of a
write performs a memory allocation.  copy_to_brk's allocation counter — the
`crypto_alloc_hash("sha1", ...)` call it makes after mapping the first
page — is nonzero on an ordinary 512-byte write at sector 0.  (The read
phase, copy_from_brk, takes no allocation oracle and performs none.) -/
theorem claim_C3_bug :
    (copy_to_brk [(0, { index := 0, data := fun _ => 0 })] (fun _ => 65) 0 512).2 ≠ 0 := by
  decide

/-- Claim C5: a request whose end sector exceeds the device capacity fails
immediately with the range error `-EIO`, processes no segments, and leaves
the page store unmodified. -/
theorem claim_C5 (cap : Nat) (t : Store) (b : BioReq) (os : Nat → Nat → Bool)
    (h : bio_end_sector b > cap) :
    brk_make_request cap t b os = some (-EIOval, t, []) := by
  unfold brk_make_request
  rw [if_pos h]

theorem claim_C5_witness :
    bio_end_sector (BioReq.mk 2040 10240 false Rw.write []) > 2048 ∧
    brk_make_request 2048 [(0, Page.mk 0 (fun _ => 65))]
        (BioReq.mk 2040 10240 false Rw.write []) (fun _ _ => true) =
      some (-EIOval, [(0, Page.mk 0 (fun _ => 65))], []) :=
  ⟨by decide,
   claim_C5 2048 [(0, Page.mk 0 (fun _ => 65))] _ (fun _ _ => true) (by decide)⟩

/-- Claim C8: under the precondition that copy_to_brk_setup succeeded for
`[sector, sector+n)`, every page the non-blocking write phase looks up
exists, so copy_to_brk's fatal missing-page assertion (`BUG_ON(!page)`,
modelled as the `none` result) is unreachable. -/
theorem claim_C8 (t : Store) (src : Nat → Nat) (sector n : Nat) (o : Nat → Bool)
    (hsetup : (copy_to_brk_setup t sector n o).1 = 0) :
    ((copy_to_brk (copy_to_brk_setup t sector n o).2 src sector n).1).isSome := by
  obtain ⟨h1, h2⟩ := setup_ok_present t sector n o hsetup
  obtain ⟨t2, ht2, -⟩ := copy_roundtrip _ src sector n h1 h2
  rw [ht2]
  rfl

theorem claim_C8_witness :
    (copy_to_brk_setup [] 0 512 (fun _ => true)).1 = 0 ∧
    ((copy_to_brk (copy_to_brk_setup [] 0 512 (fun _ => true)).2
      (fun _ => 7) 0 512).1).isSome :=
  ⟨by decide, claim_C8 [] (fun _ => 7) 0 512 (fun _ => true) (by decide)⟩

/-- Claim C9: under the store invariant, brk_free_pages removes every page
no matter how many entries the mapping holds (batched gang lookups repeated
until empty), the BLKFLSBUF ioctl with at most one opener succeeds leaving
the empty store, and any read over the emptied store returns all zero
bytes. -/
theorem claim_C9 (t : Store) (h : StoreInv t) (openers : Nat) (ho : openers ≤ 1) :
    brk_free_pages t = some [] ∧
    brk_ioctl t BLKFLSBUF openers = some (0, []) ∧
    (∀ sector n, copy_from_brk [] sector n = List.replicate n 0) :=
  ⟨brk_free_pages_empties h, brk_ioctl_flush h ho, copy_from_empty⟩

theorem claim_C9_witness :
    StoreInv [(3, { index := 3, data := fun _ => 9 })] ∧ 1 ≤ 1 ∧
    (brk_free_pages [(3, { index := 3, data := fun _ => 9 })] = some [] ∧
     brk_ioctl [(3, { index := 3, data := fun _ => 9 })] BLKFLSBUF 1 = some (0, []) ∧
     (∀ sector n, copy_from_brk [] sector n = List.replicate n 0)) := by
  have hInv : StoreInv [(3, { index := 3, data := fun _ => 9 })] := by
    constructor
    · simp [StoreWF]
    · intro e he
      simp at he
      rw [he]
  exact ⟨hInv, by decide, claim_C9 _ hInv 1 (by decide)⟩

/-- Claim C10: the discard loop acts only while at least one full page of
length remains, zeroing the whole page containing the current sector and
advancing one page at a time: the pages affected are exactly the
`n / PAGE_SIZE` consecutive page indices starting at the start sector's
page, each replaced by its cleared version; the sub-page trailing remainder
is ignored, and a discard shorter than one page leaves the store completely
unchanged. -/
theorem claim_C10 (t : Store) (sector n : Nat) :
    (n < PAGE_SIZE → discard_from_brk t sector n = t) ∧
    (∀ q, radix_tree_lookup (discard_from_brk t sector n) q =
      if pageIdx sector ≤ q ∧ q < pageIdx sector + n / PAGE_SIZE
      then (radix_tree_lookup t q).map clear_highpage
      else radix_tree_lookup t q) := by
  constructor
  · intro h
    rw [discard_from_brk, if_neg (by omega)]
  · intro q
    exact discard_lookup n t sector q

theorem claim_C10_witness :
    discard_from_brk [(0, { index := 0, data := fun _ => 8 })] 3 512 =
      [(0, { index := 0, data := fun _ => 8 })] :=
  (claim_C10 [(0, { index := 0, data := fun _ => 8 })] 3 512).1 (by decide)

/-- Claim C4 counterexample: discarding 4608 bytes (9 sectors) from sector 7
fully covers page 1 (sectors 8..15 lie inside [7, 16)), yet after the
discard that page still reads back 65, not zero: the loop zeroed only the
page containing sector 7 and dropped the trailing remainder. -/
theorem claim_C4_counterexample :
    7 ≤ 1 * PAGE_SECTORS ∧
    (1 + 1) * PAGE_SECTORS ≤ 7 + (4608 >>> SECTOR_SHIFT) ∧
    copy_from_brk (discard_from_brk [(1, Page.mk 1 (fun _ => 65))] 7 4608) 8 1 = [65] ∧
    ([65] : List Nat) ≠ List.replicate 1 0 := by
  refine ⟨by decide, by decide, ?_, by decide⟩
  have h0 : radix_tree_lookup [(1, Page.mk 1 (fun _ => 65))] (pageIdx 7) = none := rfl
  have h1 : discard_from_brk [(1, Page.mk 1 (fun _ => 65))] 7 4608 =
      discard_from_brk [(1, Page.mk 1 (fun _ => 65))]
        (7 + (PAGE_SIZE >>> SECTOR_SHIFT)) (4608 - PAGE_SIZE) := by
    rw [discard_from_brk, if_pos (by decide), brk_zero_page_of_none h0]
  rw [h1, discard_from_brk, if_neg (by decide)]
  rfl

/-- Claim C4 (amended): for a discard whose start sector is page-aligned,
every page fully covered by the byte range reads back as all zero, pages
strictly outside the range keep their exact store entry, and the discard
cannot fail for lack of space (it allocates nothing: the key set is
unchanged). -/
theorem claim_C4_amended (t : Store) (sector n : Nat)
    (halign : sector % PAGE_SECTORS = 0) :
    (∀ p, sector * SECTOR_SIZE ≤ p * PAGE_SIZE →
      (p + 1) * PAGE_SIZE ≤ sector * SECTOR_SIZE + n →
      copy_from_brk (discard_from_brk t sector n) (p * PAGE_SECTORS) PAGE_SIZE =
        List.replicate PAGE_SIZE 0) ∧
    (∀ q, (q + 1) * PAGE_SIZE ≤ sector * SECTOR_SIZE ∨
        sector * SECTOR_SIZE + n ≤ q * PAGE_SIZE →
      radix_tree_lookup (discard_from_brk t sector n) q = radix_tree_lookup t q) ∧
    storeKeys (discard_from_brk t sector n) = storeKeys t := by
  have hkey := discard_lookup n t sector
  rw [PAGE_SECTORS_eq] at halign
  refine ⟨?_, ?_, discard_keys n t sector⟩
  · intro p hp1 hp2
    have hpi : pageIdx (p * PAGE_SECTORS) = p := by
      rw [pageIdx_eq, PAGE_SECTORS_eq]
      omega
    have hoff : secOffset (p * PAGE_SECTORS) = 0 := by
      rw [secOffset_eq, PAGE_SECTORS_eq]
      omega
    have hcl : copyLen (p * PAGE_SECTORS) PAGE_SIZE = PAGE_SIZE := by
      rw [copyLen, hoff]
      simp
    have hnc : ¬ copyLen (p * PAGE_SECTORS) PAGE_SIZE < PAGE_SIZE := by
      rw [hcl]
      omega
    have hzone : pageIdx sector ≤ p ∧ p < pageIdx sector + n / PAGE_SIZE := by
      rw [pageIdx_eq]
      rw [PAGE_SIZE_eq] at hp1 hp2 ⊢
      rw [SECTOR_SIZE_eq] at hp1 hp2
      omega
    cases hl : radix_tree_lookup t p with
    | none =>
      have hnone : radix_tree_lookup (discard_from_brk t sector n) p = none := by
        rw [hkey p, if_pos hzone, hl]
        rfl
      rw [copy_from_eq_none_single (by rw [hpi]; exact hnone) hnc, hcl]
    | some pg =>
      have hsome : radix_tree_lookup (discard_from_brk t sector n) p =
          some (clear_highpage pg) := by
        rw [hkey p, if_pos hzone, hl]
        rfl
      rw [copy_from_eq_single (by rw [hpi]; exact hsome) hnc, hcl]
      have hdz : (fun i => (clear_highpage pg).data (secOffset (p * PAGE_SECTORS) + i)) =
          fun _ => (0 : Nat) := rfl
      rw [hdz, List.map_const', List.length_range]
  · intro q hq
    rw [hkey q, if_neg]
    rw [pageIdx_eq]
    rw [PAGE_SIZE_eq] at hq ⊢
    rw [SECTOR_SIZE_eq] at hq
    omega

theorem claim_C4_amended_witness :
    (0 : Nat) % PAGE_SECTORS = 0 ∧
    ((∀ p, 0 * SECTOR_SIZE ≤ p * PAGE_SIZE →
      (p + 1) * PAGE_SIZE ≤ 0 * SECTOR_SIZE + 4096 →
      copy_from_brk (discard_from_brk [] 0 4096) (p * PAGE_SECTORS) PAGE_SIZE =
        List.replicate PAGE_SIZE 0) ∧
    (∀ q, (q + 1) * PAGE_SIZE ≤ 0 * SECTOR_SIZE ∨
        0 * SECTOR_SIZE + 4096 ≤ q * PAGE_SIZE →
      radix_tree_lookup (discard_from_brk [] 0 4096) q = radix_tree_lookup [] q) ∧
    storeKeys (discard_from_brk [] 0 4096) = storeKeys []) :=
  ⟨by decide, claim_C4_amended [] 0 4096 (by decide)⟩

/-- Claim C6: copy_to_brk_setup ensures every page index the byte range
touches (at most two under the single-boundary precondition): its result is
0 or -ENOSPC; on success every touched page index has an entry; it returns
-ENOSPC exactly when one of its (at most two) brk_insert_page calls fails;
every page already present before the call is still present, with the same
contents, afterwards — also on the failure paths; and a page freshly
ensured by the successful first insert remains allocated even when the
second insert then fails (no rollback). -/
theorem claim_C6 (t : Store) (sector n : Nat) (o : Nat → Bool)
    (hrange : secOffset sector + n ≤ 2 * PAGE_SIZE) :
    ((copy_to_brk_setup t sector n o).1 = 0 ∨
      (copy_to_brk_setup t sector n o).1 = -ENOSPC) ∧
    ((copy_to_brk_setup t sector n o).1 = 0 →
      ∀ q, sector * SECTOR_SIZE < (q + 1) * PAGE_SIZE →
        q * PAGE_SIZE < sector * SECTOR_SIZE + n →
        (radix_tree_lookup (copy_to_brk_setup t sector n o).2 q).isSome) ∧
    ((copy_to_brk_setup t sector n o).1 = -ENOSPC ↔
      ((brk_insert_page t sector (o 0) (o 1)).1 = none ∨
       (copyLen sector n < n ∧
        (brk_insert_page t sector (o 0) (o 1)).1.isSome ∧
        (brk_insert_page (brk_insert_page t sector (o 0) (o 1)).2
          (nextSector sector n) (o 2) (o 3)).1 = none))) ∧
    (∀ q r, radix_tree_lookup t q = some r →
      radix_tree_lookup (copy_to_brk_setup t sector n o).2 q = some r) ∧
    ((brk_insert_page t sector (o 0) (o 1)).1.isSome →
      (radix_tree_lookup (copy_to_brk_setup t sector n o).2 (pageIdx sector)).isSome) := by
  have hB : (copy_to_brk_setup t sector n o).1 = 0 →
      ∀ q, sector * SECTOR_SIZE < (q + 1) * PAGE_SIZE →
        q * PAGE_SIZE < sector * SECTOR_SIZE + n →
        (radix_tree_lookup (copy_to_brk_setup t sector n o).2 q).isSome := by
    intro h0 q hq1 hq2
    obtain ⟨hp1, hp2⟩ := setup_ok_present t sector n o h0
    by_cases hq : q = pageIdx sector
    · rw [hq]
      exact hp1
    · have hsec := secOffset_eq sector
      have hpi := pageIdx_eq sector
      rw [SECTOR_SIZE_eq, PAGE_SIZE_eq] at hq1 hq2
      rw [PAGE_SIZE_eq] at hrange
      rw [hpi] at hq
      have hmlt : sector % 8 < 8 := Nat.mod_lt _ (by norm_num)
      have hq2' : q = sector / 8 + 1 := by
        rw [hsec] at hrange
        omega
      have hcross : copyLen sector n < n := by
        rw [copyLen_lt_iff, PAGE_SIZE_eq, hsec]
        omega
      have h3 := hp2 hcross
      rw [cross_pageIdx sector n hcross, hpi] at h3
      rw [hq2']
      exact h3
  rcases setup_cases t sector n o with ⟨t1, h1, hs⟩ | ⟨p1, t1, h1, hrest⟩
  · refine ⟨Or.inr (by rw [hs]), hB, ?_, ?_, ?_⟩
    · rw [hs]
      constructor
      · intro _
        exact Or.inl (by rw [h1])
      · intro _
        rfl
    · intro q r hq
      rw [hs]
      have hx := insert_page_mono t sector (o 0) (o 1) q r hq
      rw [h1] at hx
      exact hx
    · intro hsome
      rw [h1] at hsome
      simp at hsome
  · rcases hrest with ⟨hc, hs⟩ | ⟨hc, hrest2⟩
    · refine ⟨Or.inl (by rw [hs]), hB, ?_, ?_, ?_⟩
      · rw [hs]
        constructor
        · intro hz
          simp [ENOSPC] at hz
        · intro hz
          rcases hz with hz | ⟨hcc, -, -⟩
          · rw [h1] at hz
            exact absurd hz (by simp)
          · exact absurd hcc hc
      · intro q r hq
        rw [hs]
        have hx := insert_page_mono t sector (o 0) (o 1) q r hq
        rw [h1] at hx
        exact hx
      · intro _
        rw [hs]
        have hx := insert_page_lookup_self t sector (o 0) (o 1)
        rw [h1] at hx
        have hl1 : radix_tree_lookup t1 (pageIdx sector) = some p1 := hx (by simp)
        simp [hl1]
    · rcases hrest2 with ⟨t2, h2, hs⟩ | ⟨p2, t2, h2, hs⟩
      · refine ⟨Or.inr (by rw [hs]), hB, ?_, ?_, ?_⟩
        · rw [hs]
          constructor
          · intro _
            refine Or.inr ⟨hc, by rw [h1]; simp, ?_⟩
            rw [h1, h2]
          · intro _
            rfl
        · intro q r hq
          rw [hs]
          have hx := insert_page_mono t sector (o 0) (o 1) q r hq
          rw [h1] at hx
          have hy := insert_page_mono t1 (nextSector sector n) (o 2) (o 3) q r hx
          rw [h2] at hy
          exact hy
        · intro _
          rw [hs]
          have hx := insert_page_lookup_self t sector (o 0) (o 1)
          rw [h1] at hx
          have hl1 : radix_tree_lookup t1 (pageIdx sector) = some p1 := hx (by simp)
          have hy := insert_page_mono t1 (nextSector sector n) (o 2) (o 3) _ _ hl1
          rw [h2] at hy
          simp [hy]
      · refine ⟨Or.inl (by rw [hs]), hB, ?_, ?_, ?_⟩
        · rw [hs]
          constructor
          · intro hz
            simp [ENOSPC] at hz
          · intro hz
            rcases hz with hz | ⟨-, -, hn⟩
            · rw [h1] at hz
              exact absurd hz (by simp)
            · rw [h1, h2] at hn
              exact absurd hn (by simp)
        · intro q r hq
          rw [hs]
          have hx := insert_page_mono t sector (o 0) (o 1) q r hq
          rw [h1] at hx
          have hy := insert_page_mono t1 (nextSector sector n) (o 2) (o 3) q r hx
          rw [h2] at hy
          exact hy
        · intro _
          rw [hs]
          have hx := insert_page_lookup_self t sector (o 0) (o 1)
          rw [h1] at hx
          have hl1 : radix_tree_lookup t1 (pageIdx sector) = some p1 := hx (by simp)
          have hy := insert_page_mono t1 (nextSector sector n) (o 2) (o 3) _ _ hl1
          rw [h2] at hy
          simp [hy]

theorem claim_C6_witness :
    secOffset 0 + 512 ≤ 2 * PAGE_SIZE ∧
    (((copy_to_brk_setup [] 0 512 (fun _ => true)).1 = 0 ∨
      (copy_to_brk_setup [] 0 512 (fun _ => true)).1 = -ENOSPC) ∧
    ((copy_to_brk_setup [] 0 512 (fun _ => true)).1 = 0 →
      ∀ q, 0 * SECTOR_SIZE < (q + 1) * PAGE_SIZE →
        q * PAGE_SIZE < 0 * SECTOR_SIZE + 512 →
        (radix_tree_lookup (copy_to_brk_setup [] 0 512 (fun _ => true)).2 q).isSome) ∧
    ((copy_to_brk_setup [] 0 512 (fun _ => true)).1 = -ENOSPC ↔
      ((brk_insert_page [] 0 true true).1 = none ∨
       (copyLen 0 512 < 512 ∧
        (brk_insert_page [] 0 true true).1.isSome ∧
        (brk_insert_page (brk_insert_page [] 0 true true).2
          (nextSector 0 512) true true).1 = none))) ∧
    (∀ q r, radix_tree_lookup [] q = some r →
      radix_tree_lookup (copy_to_brk_setup [] 0 512 (fun _ => true)).2 q = some r) ∧
    ((brk_insert_page [] 0 true true).1.isSome →
      (radix_tree_lookup (copy_to_brk_setup [] 0 512 (fun _ => true)).2
        (pageIdx 0)).isSome)) :=
  ⟨by decide, claim_C6 [] 0 512 (fun _ => true) (by decide)⟩

theorem wf_at_most_one {s : Store} (h : StoreWF s) (idx : Nat) :
    (s.filter (fun e => e.1 == idx)).length ≤ 1 := by
  induction s with
  | nil => simp
  | cons a l ih =>
    have hp := List.pairwise_cons.1 h
    rw [List.filter_cons]
    by_cases ha : a.1 = idx
    · have hnil : l.filter (fun e => e.1 == idx) = [] := by
        rw [List.filter_eq_nil_iff]
        intro e he
        have := hp.1 e he
        simp
        omega
      simp [ha, hnil]
    · simp only [beq_iff_eq, ha, Bool.false_eq_true, if_false]
      exact ih hp.2

/-- Claim C7: every page index maps to at most one live page, whose recorded
index equals its mapping key; the locked insertion section, run against any
store state (including one where the index was raced in between lookup and
lock), returns the page visible to all subsequent lookups — the existing
page when one is present (discarding the new one and leaving the store
untouched), a zero-filled, index-tagged fresh page otherwise — and every
mutating operation preserves the invariant. -/
theorem claim_C7 (t : Store) (h : StoreInv t) :
    (∀ idx, (t.filter (fun e => e.1 == idx)).length ≤ 1) ∧
    (∀ e ∈ t, e.2.index = e.1) ∧
    (∀ idx,
      StoreInv (brk_insert_locked t idx zeroFilledPage).2 ∧
      radix_tree_lookup (brk_insert_locked t idx zeroFilledPage).2 idx =
        some (brk_insert_locked t idx zeroFilledPage).1 ∧
      (brk_insert_locked t idx zeroFilledPage).1.index = idx ∧
      (∀ q, radix_tree_lookup t idx = some q →
        brk_insert_locked t idx zeroFilledPage = (q, t)) ∧
      (radix_tree_lookup t idx = none →
        (brk_insert_locked t idx zeroFilledPage).1.data = fun _ => 0)) ∧
    (∀ sector a pr, StoreInv (brk_insert_page t sector a pr).2) ∧
    (∀ sector, StoreInv (brk_free_page t sector)) ∧
    (∀ sector, StoreInv (brk_zero_page t sector)) := by
  refine ⟨wf_at_most_one h.1, h.2, ?_,
    fun sector a pr => insert_page_inv h sector a pr, ?_, ?_⟩
  · intro idx
    cases hl : radix_tree_lookup t idx with
    | some q =>
      rw [insert_locked_of_some zeroFilledPage hl]
      refine ⟨h, hl, lookup_index h hl, ?_, ?_⟩
      · intro q2 hq2
        injection hq2 with hq3
        rw [hq3]
      · intro hn
        exact absurd hn (by simp)
    | none =>
      rw [insert_locked_of_none zeroFilledPage hl]
      refine ⟨inv_insert h hl rfl, lookup_insert_self idx _ t hl, rfl, ?_, fun _ => rfl⟩
      intro q hq
      exact absurd hq (by simp)
  · intro sector
    exact inv_filter h _
  · intro sector
    cases hl : radix_tree_lookup t (pageIdx sector) with
    | none =>
      rw [brk_zero_page_of_none hl]
      exact h
    | some p =>
      rw [brk_zero_page_of_some hl]
      refine inv_update h ?_
      have := lookup_index h hl
      simpa [clear_highpage] using this

theorem claim_C7_witness :
    StoreInv [] ∧
    ((∀ idx, (([] : Store).filter (fun e => e.1 == idx)).length ≤ 1) ∧
    (∀ e ∈ ([] : Store), e.2.index = e.1) ∧
    (∀ idx,
      StoreInv (brk_insert_locked [] idx zeroFilledPage).2 ∧
      radix_tree_lookup (brk_insert_locked [] idx zeroFilledPage).2 idx =
        some (brk_insert_locked [] idx zeroFilledPage).1 ∧
      (brk_insert_locked [] idx zeroFilledPage).1.index = idx ∧
      (∀ q, radix_tree_lookup [] idx = some q →
        brk_insert_locked [] idx zeroFilledPage = (q, [])) ∧
      (radix_tree_lookup [] idx = none →
        (brk_insert_locked [] idx zeroFilledPage).1.data = fun _ => 0)) ∧
    (∀ sector a pr, StoreInv (brk_insert_page [] sector a pr).2) ∧
    (∀ sector, StoreInv (brk_free_page [] sector)) ∧
    (∀ sector, StoreInv (brk_zero_page [] sector))) := by
  have hInv : StoreInv [] := ⟨List.Pairwise.nil, by simp⟩
  exact ⟨hInv, claim_C7 [] hInv⟩
